import Mathlib

/-
Verification development for the okular XPS generator
(src/generators/xps/generator_xps.h).  The header declares the data model
(AbbPathToken, XpsRenderNode, XpsHandler, XpsPageSizeHandler, XpsPage, ...);
the member function bodies live in an implementation file that is not part of
the source tree, so every behavioural definition below is modelled from the
specification and says so in its doc comment.  Machine integers are modelled
as Int/Nat, floating point geometry values as exact rationals, and fallible
steps return Option.
-/

/-- Token of the abbreviated-path tokenizer, following the header's
`AbbPathTokenType` enum (`abtCommand, abtNumber, abtComma, abtEOF`); the
payload fields `command` and `number` of class `AbbPathToken` are folded
into the corresponding constructors. -/
inductive AbbPathToken where
  | abtCommand (c : Char)
  | abtNumber (q : ℚ)
  | abtComma
  | abtEOF
  deriving DecidableEq

/-- Numeric value of a decimal digit character. -/
def chDigit (c : Char) : ℕ := c.toNat - 48

/-- Modelled from the spec: the tokenizer's in-progress number state — sign,
integer part, whether a decimal point was seen, fractional part with its digit
count, and whether any digit has been consumed; section 4.2 says numbers
accept an optional leading sign and a decimal point.  The implementation file
of the tokenizer is not under src/. -/
structure NumAcc where
  neg : Bool
  ip : ℕ
  dot : Bool
  fp : ℕ
  fpd : ℕ
  digs : Bool
  deriving DecidableEq

/-- Fresh number state, before any character of the number was read. -/
def startAcc : NumAcc := ⟨false, 0, false, 0, 0, false⟩

/-- Rational value denoted by a completed number state. -/
def numAccVal (a : NumAcc) : ℚ :=
  (if a.neg then (-1 : ℚ) else 1) * ((a.ip : ℚ) + (a.fp : ℚ) / (10 : ℚ) ^ a.fpd)

/-- Feed one decimal digit into a number state. -/
def feedDigit (a : NumAcc) (c : Char) : NumAcc :=
  if a.dot then ⟨a.neg, a.ip, true, 10 * a.fp + chDigit c, a.fpd + 1, true⟩
  else ⟨a.neg, 10 * a.ip + chDigit c, false, a.fp, a.fpd, true⟩

/-- Emit the pending number token, if the state holds at least one digit. -/
def flushTok : Option NumAcc → List AbbPathToken
  | none => []
  | some a => if a.digs then [AbbPathToken.abtNumber (numAccVal a)] else []

/-- Modelled from the spec: the abbreviated-path tokenizer of section 4.2
(implementation file not under src/).  It consumes the geometry string left
to right producing command letters, numbers and commas; numbers accept an
optional leading sign and a decimal point, a following digit with no
separator starts a new number, and unknown characters outside this
vocabulary stop tokenization at that position. -/
def tokenizeAux : List Char → Option NumAcc → List AbbPathToken
  | [], st => flushTok st
  | c :: rest, st =>
    if c.isDigit then tokenizeAux rest (some (feedDigit (st.getD startAcc) c))
    else if c = ' ' then flushTok st ++ tokenizeAux rest none
    else if c = ',' then flushTok st ++ (AbbPathToken.abtComma :: tokenizeAux rest none)
    else if c = '.' then
      match st with
      | none => tokenizeAux rest (some ⟨false, 0, true, 0, 0, false⟩)
      | some a =>
        if a.dot then flushTok st ++ tokenizeAux rest (some ⟨false, 0, true, 0, 0, false⟩)
        else tokenizeAux rest (some ⟨a.neg, a.ip, true, a.fp, a.fpd, a.digs⟩)
    else if c = '-' then flushTok st ++ tokenizeAux rest (some ⟨true, 0, false, 0, 0, false⟩)
    else if c = '+' then flushTok st ++ tokenizeAux rest (some startAcc)
    else if c.isAlpha then flushTok st ++ (AbbPathToken.abtCommand c :: tokenizeAux rest none)
    else flushTok st

/-- Tokenize a whole geometry character list. -/
def tokenize (cs : List Char) : List AbbPathToken := tokenizeAux cs none

/-- Modelled from the spec: the arity table of section 3 — moveto/lineto 2,
horizontal/vertical line 1, cubic 6, smooth cubic 4, quad 4, smooth quad 2,
arc 7, close 0 — keyed by the canonical lowercase command letter; `none` for
an unrecognized command letter. -/
def commandArity (c : Char) : Option ℕ :=
  if c = 'm' ∨ c = 'l' then some 2
  else if c = 'h' ∨ c = 'v' then some 1
  else if c = 'c' then some 6
  else if c = 's' ∨ c = 'q' then some 4
  else if c = 't' then some 2
  else if c = 'a' then some 7
  else if c = 'z' then some 0
  else none

/-- PathSegment of section 3: command kind as the canonical lowercase letter,
relative-or-absolute flag, fixed-arity parameter list. -/
structure PathSegment where
  command : Char
  isRelative : Bool
  params : List ℚ
  deriving DecidableEq

/-- Build the segment recorded for command letter `c` (as written in the
string) with parameter group `ps`; lowercase letters are the relative
commands. -/
def segOf (c : Char) (ps : List ℚ) : PathSegment := ⟨c.toLower, c.isLower, ps⟩

/-- Parser state of the abbreviated-path grammar: current command letter with
its arity (if any), the numbers collected toward the current parameter group,
and the segments accumulated so far. -/
structure AbbParseSt where
  cur : Option (Char × ℕ)
  pending : List ℚ
  acc : List PathSegment
  deriving DecidableEq

/-- Outcome of a parsing step: continue in a state, or stop with the
segments accumulated before the stop position. -/
inductive AbbParseOut where
  | ok (st : AbbParseSt)
  | halt (segs : List PathSegment)
  deriving DecidableEq

/-- Modelled from the spec: one token step of the abbreviated-path grammar of
section 4.2 (implementation file not under src/).  A command letter opens a
run of parameter groups sized to its arity; trailing groups without a new
letter repeat the previous command; a parameter count that is not a multiple
of the arity, or an unrecognized command letter, stops parsing keeping the
segments accumulated so far. -/
def stepTok (t : AbbPathToken) (st : AbbParseSt) : AbbParseOut :=
  match t with
  | AbbPathToken.abtComma => AbbParseOut.ok st
  | AbbPathToken.abtEOF => AbbParseOut.halt st.acc
  | AbbPathToken.abtCommand c =>
    if st.pending = [] then
      match commandArity c.toLower with
      | none => AbbParseOut.halt st.acc
      | some 0 => AbbParseOut.ok ⟨none, [], st.acc ++ [segOf c []]⟩
      | some (a + 1) => AbbParseOut.ok ⟨some (c, a + 1), [], st.acc⟩
    else AbbParseOut.halt st.acc
  | AbbPathToken.abtNumber q =>
    match st.cur with
    | none => AbbParseOut.halt st.acc
    | some (c, a) =>
      if (st.pending ++ [q]).length = a then
        AbbParseOut.ok ⟨some (c, a), [], st.acc ++ [segOf c (st.pending ++ [q])]⟩
      else AbbParseOut.ok ⟨some (c, a), st.pending ++ [q], st.acc⟩

/-- Run the token steps over a token list. -/
def runTokens : List AbbPathToken → AbbParseSt → AbbParseOut
  | [], st => AbbParseOut.ok st
  | t :: ts, st =>
    match stepTok t st with
    | AbbParseOut.ok st' => runTokens ts st'
    | AbbParseOut.halt segs => AbbParseOut.halt segs

/-- Segments delivered at the end of a run; a group left incomplete at the
end of input is dropped while the accumulated segments are kept. -/
def finishRun : AbbParseOut → List PathSegment
  | AbbParseOut.ok st => st.acc
  | AbbParseOut.halt segs => segs

/-- Initial parser state. -/
def initParseSt : AbbParseSt := ⟨none, [], []⟩

/-- Parse a token list into the ordered segment list. -/
def parseTokens (ts : List AbbPathToken) : List PathSegment :=
  finishRun (runTokens ts initParseSt)

/-- Modelled from the spec: the abbreviated-path mini-language parser of
section 4.2, driven inside `XpsHandler::processPath` (implementation file not
under src/): tokenize the geometry string and parse the tokens, keeping every
segment accumulated before any error position. -/
def parseAbbreviatedPathData (s : String) : List PathSegment :=
  parseTokens (tokenize s.data)

/-- Affine 2x3 transform with the header's type name (`XpsMatrixTransform` is
`QMatrix`); field names follow QMatrix (`m11 m12 m21 m22 dx dy`).  Points are
row vectors: a point `(x, y)` maps to
`(x*m11 + y*m21 + dx, x*m12 + y*m22 + dy)`. -/
structure XpsMatrixTransform where
  m11 : ℚ
  m12 : ℚ
  m21 : ℚ
  m22 : ℚ
  dx : ℚ
  dy : ℚ
  deriving DecidableEq

/-- Identity transform, the default when no transform attribute is present. -/
def idMatrix : XpsMatrixTransform := ⟨1, 0, 0, 1, 0, 0⟩

/-- Matrix product; with row-vector points, `mulM a b` applies `a` first and
then `b`. -/
def mulM (a b : XpsMatrixTransform) : XpsMatrixTransform :=
  ⟨a.m11 * b.m11 + a.m12 * b.m21,
   a.m11 * b.m12 + a.m12 * b.m22,
   a.m21 * b.m11 + a.m22 * b.m21,
   a.m21 * b.m12 + a.m22 * b.m22,
   a.dx * b.m11 + a.dy * b.m21 + b.dx,
   a.dx * b.m12 + a.dy * b.m22 + b.dy⟩

/-- Apply a transform to a point (row-vector convention). -/
def applyM (m : XpsMatrixTransform) (p : ℚ × ℚ) : ℚ × ℚ :=
  (p.1 * m.m11 + p.2 * m.m21 + m.dx, p.1 * m.m12 + p.2 * m.m22 + m.dy)

/-- Keep only number tokens. -/
def numOfTok : AbbPathToken → Option ℚ
  | AbbPathToken.abtNumber q => some q
  | _ => none

/-- Modelled from the spec: `XpsHandler::attsToMatrix` (declared in the
header, body not under src/) parses a `Matrix` attribute given as six
comma-separated numbers into the affine transform; a malformed literal
degrades to the identity, the safe default of section 4.3. -/
def attsToMatrix (csv : String) : XpsMatrixTransform :=
  match (tokenize csv.data).filterMap numOfTok with
  | [a, b, c, d, e, f] => ⟨a, b, c, d, e, f⟩
  | _ => idMatrix

/-- Brush variant of section 3, with the header's `XpsFill` name (`QBrush`):
a solid color carries alpha and RGB channels. -/
inductive XpsFill where
  | solid (a r g b : ℕ)
  deriving DecidableEq

/-- Fully transparent brush, the fallback of section 4.3. -/
def transparentFill : XpsFill := XpsFill.solid 0 0 0 0

/-- A resource dictionary value: a brush or a transform (section 3,
ResourceDictionary maps key to Brush or Transform). -/
inductive XpsResource where
  | brush (b : XpsFill)
  | matrix (m : XpsMatrixTransform)
  deriving DecidableEq

/-- Left and right curly brace characters (kept out of string literals). -/
def lbrace : Char := Char.ofNat 123

/-- Right curly brace character. -/
def rbrace : Char := Char.ofNat 125

/-- The reference-marker opening, `lbrace` followed by `StaticResource` and a
space. -/
def refMarker : List Char := lbrace :: ("StaticResource ").data

/-- Build the reference string for a key. -/
def refString (key : String) : String := ⟨refMarker ++ key.data ++ [rbrace]⟩

/-- Boolean list equality test on characters used for the marker match. -/
def charsPre : List Char → List Char → Bool
  | [], _ => true
  | _ :: _, [] => false
  | a :: as, b :: bs => a = b && charsPre as bs

/-- Modelled from the spec: recognize the reference marker syntax and
extract the resource key named by a reference string (section 4.3). -/
def refKeyOf (s : String) : Option String :=
  if charsPre refMarker s.data ∧ s.data.getLast? = some rbrace then
    some ⟨(s.data.drop refMarker.length).dropLast⟩
  else none

/-- Association-list lookup by key with decidable string equality. -/
def lookupKey {α : Type} (k : String) : List (String × α) → Option α
  | [] => none
  | (k', v) :: rest => if k' = k then some v else lookupKey k rest

/-- Modelled from the spec: walk the ResourceDictionary scope chain from the
nearest enclosing scope outward (section 4.3, lookup walks innermost to
outermost). -/
def lookupRsc : List (List (String × XpsResource)) → String → Option XpsResource
  | [], _ => none
  | sc :: rest, k =>
    match lookupKey k sc with
    | some v => some v
    | none => lookupRsc rest k

/-- Hexadecimal digit value. -/
def hexDigitVal (c : Char) : Option ℕ :=
  if c.isDigit then some (chDigit c)
  else if c = 'a' ∨ c = 'A' then some 10
  else if c = 'b' ∨ c = 'B' then some 11
  else if c = 'c' ∨ c = 'C' then some 12
  else if c = 'd' ∨ c = 'D' then some 13
  else if c = 'e' ∨ c = 'E' then some 14
  else if c = 'f' ∨ c = 'F' then some 15
  else none

/-- Value of a hex digit string, `none` on any non-hex character. -/
def hexListVal (ds : List Char) : Option ℕ :=
  ds.foldl (fun acc c => acc.bind fun a => (hexDigitVal c).map fun d => 16 * a + d) (some 0)

/-- Modelled from the spec: parse a literal hex color (`#RRGGBB` or
`#AARRGGBB`); a malformed literal degrades to the transparent fallback
(section 4.3). -/
def parseColorLit (s : String) : XpsFill :=
  match s.data with
  | '#' :: ds =>
    match hexListVal ds with
    | some v =>
      if ds.length = 6 then XpsFill.solid 255 (v / 65536 % 256) (v / 256 % 256) (v % 256)
      else if ds.length = 8 then
        XpsFill.solid (v / 16777216 % 256) (v / 65536 % 256) (v / 256 % 256) (v % 256)
      else transparentFill
    | none => transparentFill
  | _ => transparentFill

/-- Modelled from the spec: `XpsHandler::parseRscRefColor` (declared in the
header, body not under src/): a reference marker is resolved through the
scope chain, nearest scope first; a missing key (or a non-brush entry)
degrades to the transparent brush and painting proceeds; otherwise the
string is parsed as a color literal. -/
def parseRscRefColor (scopes : List (List (String × XpsResource))) (data : String) : XpsFill :=
  match refKeyOf data with
  | some key =>
    match lookupRsc scopes key with
    | some (XpsResource.brush b) => b
    | _ => transparentFill
  | none => parseColorLit data

/-- Modelled from the spec: `XpsHandler::parseRscRefMatrix` (declared in the
header, body not under src/): a reference marker is resolved through the
scope chain, nearest scope first; a missing key (or a non-matrix entry)
degrades to the identity transform; otherwise the string is parsed as a
six-number matrix literal. -/
def parseRscRefMatrix (scopes : List (List (String × XpsResource))) (data : String) :
    XpsMatrixTransform :=
  match refKeyOf data with
  | some key =>
    match lookupRsc scopes key with
    | some (XpsResource.matrix m) => m
    | _ => idMatrix
  | none => attsToMatrix data

/-- Render node of the header's `XpsRenderNode`: element name and attribute
mapping (children and typed payload are not needed by the modelled
behaviour). -/
structure XpsRenderNode where
  name : String
  attributes : List (String × String)
  deriving DecidableEq

/-- SAX event of the page-part XML stream feeding the handler. -/
inductive XmlEv where
  | startEl (name : String) (atts : List (String × String))
  | endEl (name : String)
  deriving DecidableEq

/-- Paint call issued to the canvas collaborator. -/
inductive PaintOp where
  | paintPath (segs : List PathSegment) (fill : XpsFill) (m : XpsMatrixTransform)
  | paintGlyphs (fill : XpsFill) (m : XpsMatrixTransform)
  deriving DecidableEq

/-- Handler state of `XpsHandler`: the active resource scope chain, the
`m_nodes` stack paired with the accumulated transform at each depth, and the
paint calls issued so far. -/
structure XpsHandlerSt where
  scopes : List (List (String × XpsResource))
  nodes : List (XpsRenderNode × XpsMatrixTransform)
  paints : List PaintOp
  deriving DecidableEq

/-- Accumulated transform at the current traversal depth; identity at the
root. -/
def curMatrixOf (st : XpsHandlerSt) : XpsMatrixTransform :=
  ((st.nodes.head?).map Prod.snd).getD idMatrix

/-- Modelled from the spec: `XpsHandler::startElement` (declared in the
header, body not under src/): push a node recording name and attributes,
eagerly parse a transform attribute if present and compose it by
left-multiplication onto the accumulated ancestor transform (sections 3 and
4.4); it never fails, so it always returns `true`. -/
def startElement (localName : String) (atts : List (String × String)) (st : XpsHandlerSt) :
    Bool × XpsHandlerSt :=
  let accM :=
    match lookupKey "RenderTransform" atts with
    | some t => mulM (parseRscRefMatrix st.scopes t) (curMatrixOf st)
    | none => curMatrixOf st
  (true, ⟨st.scopes, (⟨localName, atts⟩, accM) :: st.nodes, st.paints⟩)

/-- Modelled from the spec: `XpsHandler::processPath` (declared in the
header, body not under src/): build geometry with the abbreviated-path
parser from the `Data` attribute, resolve the `Fill` brush, and issue one
paint call under the fully accumulated ancestor transform (section 4.4). -/
def processPath (node : XpsRenderNode) (m : XpsMatrixTransform)
    (scopes : List (List (String × XpsResource))) : PaintOp :=
  PaintOp.paintPath
    (parseAbbreviatedPathData ((lookupKey "Data" node.attributes).getD ""))
    (parseRscRefColor scopes ((lookupKey "Fill" node.attributes).getD ""))
    m

/-- Modelled from the spec: `XpsHandler::processGlyph` (declared in the
header, body not under src/): resolve the fill brush and issue one
text-paint call under the accumulated transform (section 4.4). -/
def processGlyph (node : XpsRenderNode) (m : XpsMatrixTransform)
    (scopes : List (List (String × XpsResource))) : PaintOp :=
  PaintOp.paintGlyphs
    (parseRscRefColor scopes ((lookupKey "Fill" node.attributes).getD ""))
    m

/-- Modelled from the spec: `XpsHandler::endElement` (declared in the header,
body not under src/): pop the node, dispatch by element kind — `Path` and
`Glyphs` are the two leaf paint paths, a grouping or unrecognized element
only pops its stack contribution and produces no paint side effect (section
4.4); it never fails. -/
def endElement (_localName : String) (st : XpsHandlerSt) : Bool × XpsHandlerSt :=
  match st.nodes with
  | [] => (true, st)
  | (node, m) :: rest =>
    if node.name = "Path" then
      (true, ⟨st.scopes, rest, st.paints ++ [processPath node m st.scopes]⟩)
    else if node.name = "Glyphs" then
      (true, ⟨st.scopes, rest, st.paints ++ [processGlyph node m st.scopes]⟩)
    else (true, ⟨st.scopes, rest, st.paints⟩)

/-- Drive the SAX events through the handler; parsing stops early if a
callback returns false (the QXmlSimpleReader contract). -/
def runHandler : List XmlEv → XpsHandlerSt → Bool × XpsHandlerSt
  | [], st => (true, st)
  | ev :: evs, st =>
    match
      match ev with
      | XmlEv.startEl n atts => startElement n atts st
      | XmlEv.endEl n => endElement n st
    with
    | (true, st') => runHandler evs st'
    | (false, st') => (false, st')

/-- Initial handler state over a given scope chain. -/
def initHandlerSt (scopes : List (List (String × XpsResource))) : XpsHandlerSt :=
  ⟨scopes, [], []⟩

/-- Modelled from the spec: the page render drives the element processor over
the page's event stream; the produced raster is abstracted as its ordered
paint-call list, and the render fails (`none`) only if some handler callback
returns false. -/
def renderToImageCore (evs : List XmlEv) (scopes : List (List (String × XpsResource))) :
    Option (List PaintOp) :=
  match runHandler evs (initHandlerSt scopes) with
  | (true, st) => some st.paints
  | (false, _) => none

/-- Call-count instrumentation of the archive and font collaborators
(section 5 observes render-once behaviour through call counts). -/
structure XpsCollab where
  archiveReads : ℕ
  fontRegisters : ℕ
  deriving DecidableEq

/-- Per-page state of the header's `XpsPage`: page part content and scope
chain, declared size (`QSize m_pageSize`, an integer pair), the cached
raster `m_pageImage` with the `m_pageIsRendered` flag, and the
`m_fontCache` name-to-handle map. -/
structure XpsPageSt where
  content : List XmlEv
  scopes : List (List (String × XpsResource))
  pageSize : Int × Int
  pageImage : Option (List PaintOp)
  pageIsRendered : Bool
  fontCache : List (String × ℕ)
  deriving DecidableEq

/-- Raster produced by a full parse-and-paint of the page content. -/
def pageRaster (pg : XpsPageSt) : List PaintOp :=
  (runHandler pg.content (initHandlerSt pg.scopes)).2.paints

/-- Modelled from the spec: `XpsPage::renderToImage` (declared in the header,
body not under src/): if already rendered return the cached raster unchanged
with no collaborator calls; otherwise perform the full parse-and-paint
(reading the page part from the archive), cache the result and mark the page
rendered (section 4.6). -/
def renderToImage (pg : XpsPageSt) (log : XpsCollab) :
    List PaintOp × XpsPageSt × XpsCollab :=
  if pg.pageIsRendered then ((pg.pageImage).getD [], pg, log)
  else
    (pageRaster pg,
     ⟨pg.content, pg.scopes, pg.pageSize, some (pageRaster pg), true, pg.fontCache⟩,
     ⟨log.archiveReads + 1, log.fontRegisters⟩)

/-- Modelled from the spec: `XpsPage::loadFontByName` (declared in the
header, body not under src/): return the cached handle if present; otherwise
read the font bytes from the archive, register them with the font
collaborator, cache and return the new handle (section 4.5). -/
def loadFontByName (pg : XpsPageSt) (log : XpsCollab) (fontName : String) :
    ℕ × XpsPageSt × XpsCollab :=
  match lookupKey fontName pg.fontCache with
  | some h => (h, pg, log)
  | none =>
    (pg.fontCache.length,
     ⟨pg.content, pg.scopes, pg.pageSize, pg.pageImage, pg.pageIsRendered,
      pg.fontCache ++ [(fontName, pg.fontCache.length)]⟩,
     ⟨log.archiveReads + 1, log.fontRegisters + 1⟩)

/-- `XpsPage::size`: the declared page size, an integer pair. -/
def pageSizeOf (pg : XpsPageSt) : Int × Int := pg.pageSize

/-- Digit-string value used by the integer conversion. -/
def decDigitsVal (ds : List Char) : Option ℕ :=
  if ds ≠ [] ∧ ds.all Char.isDigit then
    some (ds.foldl (fun a c => 10 * a + chDigit c) 0)
  else none

/-- Modelled from the spec: the numeric conversion of a size attribute into
the scanner's machine-integer fields (`int m_width`, `int m_height` in the
header): an optional sign followed by decimal digits; any other character
(including a decimal point) makes the attribute non-numeric. -/
def toIntQt (s : String) : Option Int :=
  match s.data with
  | '-' :: ds => (decDigitsVal ds).map (fun n => -(n : Int))
  | '+' :: ds => (decDigitsVal ds).map (fun n => (n : Int))
  | ds => (decDigitsVal ds).map (fun n => (n : Int))

/-- Scanner result of the header's `XpsPageSizeHandler`: machine-integer
width and height with the `m_parsed_successfully` flag. -/
structure XpsPageSizeHandler where
  m_width : Int
  m_height : Int
  m_parsed_successfully : Bool
  deriving DecidableEq

/-- Modelled from the spec: the page-size scanner of section 4.1 (the
header's `XpsPageSizeHandler::startElement`, body not under src/): it reads
only the root element's width/height attributes and stops the scan without
consuming any descendant element; it succeeds when both attributes are
present and numeric and fails otherwise. -/
def scanPageSize (evs : List XmlEv) : XpsPageSizeHandler :=
  match evs with
  | XmlEv.startEl _ atts :: _ =>
    match (lookupKey "PageWidth" atts).bind toIntQt,
        (lookupKey "PageHeight" atts).bind toIntQt with
    | some w, some h => ⟨w, h, true⟩
    | some w, none => ⟨w, 0, false⟩
    | none, some h => ⟨0, h, false⟩
    | none, none => ⟨0, 0, false⟩
  | _ => ⟨0, 0, false⟩

/-- Size pair reported by a successful scan. -/
def scanResult (evs : List XmlEv) : Option (Int × Int) :=
  if (scanPageSize evs).m_parsed_successfully then
    some ((scanPageSize evs).m_width, (scanPageSize evs).m_height)
  else none

/-- The scanner's report embedded into the rationals, to state what the
integer representation cannot carry. -/
def scanResultQ (evs : List XmlEv) : Option (ℚ × ℚ) :=
  (scanResult evs).map (fun p => ((p.1 : ℚ), (p.2 : ℚ)))

/-- The page's declared size embedded into the rationals. -/
def pageSizeQ (pg : XpsPageSt) : ℚ × ℚ :=
  (((pageSizeOf pg).1 : ℚ), ((pageSizeOf pg).2 : ℚ))

/-- Big-endian decimal digit characters of a natural number (empty for 0). -/
def natToChars (n : ℕ) : List Char :=
  (Nat.digits 10 n).reverse.map (fun d => Char.ofNat (48 + d))

/-- Big-endian decimal digit characters, nonempty (`"0"` for 0). -/
def natToCharsNN (n : ℕ) : List Char :=
  if n = 0 then ['0'] else natToChars n

/-- Digit characters of `m` left-padded with zeros to width `k`. -/
def padDigits (k m : ℕ) : List Char :=
  List.replicate (k - (natToChars m).length) '0' ++ natToChars m

/-- Numerator of `q` rescaled to the fixed denominator `10 ^ q.den`, in
absolute value. -/
def decScaled (q : ℚ) : ℕ := q.num.natAbs * (10 ^ q.den / q.den)

/-- Canonical decimal serialization of a rational whose denominator divides a
power of ten: sign, integer digits, a decimal point and `q.den` fractional
digits. -/
def serializeNum (q : ℚ) : List Char :=
  if q.den ∣ 10 ^ q.den then
    (if q.num < 0 then ['-'] else []) ++
      natToCharsNN (decScaled q / 10 ^ q.den) ++
      '.' :: padDigits q.den (decScaled q % 10 ^ q.den)
  else ['0']

/-- Comma-separated serialization of a parameter group. -/
def serializeParams : List ℚ → List Char
  | [] => []
  | [q] => serializeNum q
  | q :: rest => serializeNum q ++ ',' :: serializeParams rest

/-- Command letter written for a segment: the canonical lowercase letter for
a relative segment, its uppercase form for an absolute one. -/
def cmdCharOf (s : PathSegment) : Char :=
  if s.isRelative then s.command else s.command.toUpper

/-- Canonical serialization of one segment. -/
def serializeSeg (s : PathSegment) : List Char :=
  cmdCharOf s :: serializeParams s.params

/-- Canonical serialization of a segment list. -/
def serializeSegs : List PathSegment → List Char
  | [] => []
  | s :: rest => serializeSeg s ++ serializeSegs rest

/-- Canonical abbreviated-path string of a segment list (section 8, path
round-trip: reserializing to canonical form). -/
def serializeAbbPath (l : List PathSegment) : String := ⟨serializeSegs l⟩

/-- A rational exactly representable in decimal notation. -/
def decimalQ (q : ℚ) : Prop := ∃ k, q.den ∣ 10 ^ k

/-- Well-formed segment: the parameter list has exactly the arity of the
(canonical lowercase) command, and every parameter is a decimal rational. -/
def WFSeg (s : PathSegment) : Prop :=
  commandArity s.command = some s.params.length ∧ ∀ q ∈ s.params, decimalQ q

/-- Token lists that feed the numbers `ps` into the parser, with commas
freely interleaved. -/
inductive NumFeed : List AbbPathToken → List ℚ → Prop
  | nil : NumFeed [] []
  | comma {ts ps} : NumFeed ts ps → NumFeed (AbbPathToken.abtComma :: ts) ps
  | num {ts ps q} : NumFeed ts ps → NumFeed (AbbPathToken.abtNumber q :: ts) (q :: ps)

/-- Character lists whose head (if any) ends a pending number in the
tokenizer: anything but a digit or a decimal point. -/
def numBoundary : List Char → Prop
  | [] => True
  | c :: _ => c.isDigit = false ∧ c ≠ '.'

theorem lookupKey_append_none {α : Type} (k : String) (l1 l2 : List (String × α))
    (h : lookupKey k l1 = none) : lookupKey k (l1 ++ l2) = lookupKey k l2 := by
  induction l1 with
  | nil => simp
  | cons p rest ih =>
    obtain ⟨k', v⟩ := p
    by_cases hk : k' = k
    · simp [lookupKey, hk] at h
    · simp only [lookupKey, if_neg hk, List.cons_append] at h ⊢
      exact ih h

/-- Claim C3: page rendering is render-once and idempotent — the second
`renderToImage` call returns the same raster, leaves the cached raster and
page state unchanged and makes zero collaborator calls, while the first call
on an unrendered page performs the full parse-and-paint and caches it. -/
theorem xps_C3_render_once (pg : XpsPageSt) (log : XpsCollab) :
    (renderToImage (renderToImage pg log).2.1 (renderToImage pg log).2.2).1 =
      (renderToImage pg log).1 ∧
    (renderToImage (renderToImage pg log).2.1 (renderToImage pg log).2.2).2.1 =
      (renderToImage pg log).2.1 ∧
    (renderToImage (renderToImage pg log).2.1 (renderToImage pg log).2.2).2.2 =
      (renderToImage pg log).2.2 ∧
    (pg.pageIsRendered = false →
      (renderToImage pg log).1 = pageRaster pg ∧
      (renderToImage pg log).2.1.pageImage = some (pageRaster pg) ∧
      (renderToImage pg log).2.1.pageIsRendered = true) := by
  by_cases h : pg.pageIsRendered <;> simp [renderToImage, h]

theorem xps_C3_render_once_witness :
    (renderToImage (⟨[], [], (0, 0), none, false, []⟩ : XpsPageSt) ⟨0, 0⟩).1 =
      pageRaster ⟨[], [], (0, 0), none, false, []⟩ :=
  ((xps_C3_render_once ⟨[], [], (0, 0), none, false, []⟩ ⟨0, 0⟩).2.2.2 rfl).1

/-- Claim C4: requesting the same font name twice causes exactly one load
call — `loadFontByName` returns the cached handle when present, otherwise it
loads, registers, caches and returns a new handle, and cache entries are
never evicted. -/
theorem xps_C4_font_cache_single_load (pg : XpsPageSt) (log : XpsCollab) (fontName : String)
    (h : lookupKey fontName pg.fontCache = none) :
    (loadFontByName (loadFontByName pg log fontName).2.1 (loadFontByName pg log fontName).2.2
        fontName).1 = (loadFontByName pg log fontName).1 ∧
    (loadFontByName (loadFontByName pg log fontName).2.1 (loadFontByName pg log fontName).2.2
        fontName).2.1 = (loadFontByName pg log fontName).2.1 ∧
    (loadFontByName (loadFontByName pg log fontName).2.1 (loadFontByName pg log fontName).2.2
        fontName).2.2 = (loadFontByName pg log fontName).2.2 ∧
    (loadFontByName pg log fontName).2.2.archiveReads = log.archiveReads + 1 ∧
    (loadFontByName pg log fontName).2.2.fontRegisters = log.fontRegisters + 1 ∧
    (∀ e ∈ pg.fontCache, e ∈ (loadFontByName pg log fontName).2.1.fontCache) ∧
    (∀ (pg' : XpsPageSt) (log' : XpsCollab) (n : String) (hdl : ℕ),
      lookupKey n pg'.fontCache = some hdl → loadFontByName pg' log' n = (hdl, pg', log')) := by
  have h2 : lookupKey fontName (pg.fontCache ++ [(fontName, pg.fontCache.length)]) =
      some pg.fontCache.length := by
    rw [lookupKey_append_none fontName pg.fontCache _ h]
    simp [lookupKey]
  refine ⟨?_, ?_, ?_, ?_, ?_, ?_, ?_⟩
  · simp [loadFontByName, h, h2]
  · simp [loadFontByName, h, h2]
  · simp [loadFontByName, h, h2]
  · simp [loadFontByName, h]
  · simp [loadFontByName, h]
  · intro e he
    simp only [loadFontByName, h]
    exact List.mem_append_left _ he
  · intro pg' log' n hdl hl
    simp [loadFontByName, hl]

theorem xps_C4_font_cache_single_load_witness :
    (loadFontByName (⟨[], [], (0, 0), none, false, []⟩ : XpsPageSt) ⟨0, 0⟩ "arial").2.2.fontRegisters
      = 0 + 1 :=
  (xps_C4_font_cache_single_load ⟨[], [], (0, 0), none, false, []⟩ ⟨0, 0⟩ "arial" rfl).2.2.2.2.1

/-- Claim C5: the page-size scanner reads only the root element's attributes
(its result does not depend on the rest of the stream), succeeds with the
two parsed values exactly when both size attributes are present and numeric,
fails otherwise, and on `PageWidth="600" PageHeight="800"` returns
`(600, 800)`. -/
theorem xps_C5_page_size_scan :
    (∀ n atts rest rest',
        scanResult (XmlEv.startEl n atts :: rest) = scanResult (XmlEv.startEl n atts :: rest')) ∧
    (∀ n atts rest w h,
        (lookupKey "PageWidth" atts).bind toIntQt = some w →
        (lookupKey "PageHeight" atts).bind toIntQt = some h →
        scanResult (XmlEv.startEl n atts :: rest) = some (w, h)) ∧
    (∀ n atts rest,
        ((lookupKey "PageWidth" atts).bind toIntQt = none ∨
         (lookupKey "PageHeight" atts).bind toIntQt = none) →
        scanResult (XmlEv.startEl n atts :: rest) = none) ∧
    scanResult [XmlEv.startEl "Page" [("PageWidth", "600"), ("PageHeight", "800")],
      XmlEv.startEl "Child" [], XmlEv.endEl "Child", XmlEv.endEl "Page"] = some (600, 800) ∧
    scanResult [XmlEv.startEl "Page" [("Lang", "en")]] = none := by
  refine ⟨?_, ?_, ?_, by decide, by decide⟩
  · intro n atts rest rest'
    rfl
  · intro n atts rest w h hw hh
    simp [scanResult, scanPageSize, hw, hh]
  · intro n atts rest h
    rcases h with h | h
    · cases hh : (lookupKey "PageHeight" atts).bind toIntQt <;>
        simp [scanResult, scanPageSize, h, hh]
    · cases hw : (lookupKey "PageWidth" atts).bind toIntQt <;>
        simp [scanResult, scanPageSize, h, hw]

theorem xps_C5_page_size_scan_witness :
    scanResult [XmlEv.startEl "Page" [("PageWidth", "600"), ("PageHeight", "800")]] =
      some (600, 800) :=
  xps_C5_page_size_scan.2.1 "Page" [("PageWidth", "600"), ("PageHeight", "800")] [] 600 800
    (by decide) (by decide)

/-- Claim C10: the scanner stores width and height as machine integers and a
page's declared size is an integer pair, so any size value that reaches the
caller is integral (denominator 1 as a rational) and a fractional attribute
value such as `600.5` is never reported — the scan fails on it. -/
theorem xps_C10_integer_size_storage :
    (∀ evs p, scanResultQ evs = some p → p.1.den = 1 ∧ p.2.den = 1) ∧
    (∀ pg : XpsPageSt, (pageSizeQ pg).1.den = 1 ∧ (pageSizeQ pg).2.den = 1) ∧
    scanResult [XmlEv.startEl "Page" [("PageWidth", "600.5"), ("PageHeight", "800")]] =
      none := by
  refine ⟨?_, ?_, by decide⟩
  · intro evs p hp
    rw [scanResultQ] at hp
    rcases Option.map_eq_some'.mp hp with ⟨x, hx, rfl⟩
    exact ⟨Rat.intCast_den x.1, Rat.intCast_den x.2⟩
  · intro pg
    exact ⟨Rat.intCast_den _, Rat.intCast_den _⟩

theorem xps_C10_integer_size_storage_witness :
    (((600 : ℤ) : ℚ), ((800 : ℤ) : ℚ)).1.den = 1 ∧
      (((600 : ℤ) : ℚ), ((800 : ℤ) : ℚ)).2.den = 1 :=
  xps_C10_integer_size_storage.1
    [XmlEv.startEl "Page" [("PageWidth", "600"), ("PageHeight", "800")]]
    (((600 : ℤ) : ℚ), ((800 : ℤ) : ℚ))
    (by rw [scanResultQ, show scanResult [XmlEv.startEl "Page"
      [("PageWidth", "600"), ("PageHeight", "800")]] = some (600, 800) from by decide]; rfl)

theorem charsPre_append_self (l rest : List Char) : charsPre l (l ++ rest) = true := by
  induction l with
  | nil => rfl
  | cons a as ih => simp [charsPre, ih]

theorem refKeyOf_refString (key : String) : refKeyOf (refString key) = some key := by
  have h1 : (refString key).data = refMarker ++ (key.data ++ [rbrace]) := by
    simp [refString]
  simp only [refKeyOf, h1]
  rw [if_pos ⟨charsPre_append_self _ _,
    by rw [← List.append_assoc]; exact List.getLast?_concat _⟩]
  rw [List.drop_left, List.dropLast_concat]

theorem lookupRsc_skip (pre rest : List (List (String × XpsResource))) (key : String)
    (h : ∀ d ∈ pre, lookupKey key d = none) :
    lookupRsc (pre ++ rest) key = lookupRsc rest key := by
  induction pre with
  | nil => rfl
  | cons sc pre' ih =>
    have hsc := h sc (by simp)
    simp only [List.cons_append, lookupRsc, hsc]
    exact ih (fun d hd => h d (by simp [hd]))

theorem lookupRsc_none (scopes : List (List (String × XpsResource))) (key : String)
    (h : ∀ d ∈ scopes, lookupKey key d = none) : lookupRsc scopes key = none := by
  induction scopes with
  | nil => rfl
  | cons sc rest ih =>
    have hsc := h sc (by simp)
    simp only [lookupRsc, hsc]
    exact ih (fun d hd => h d (by simp [hd]))

theorem endElement_ok (ln : String) (st : XpsHandlerSt) :
    ∃ st', endElement ln st = (true, st') := by
  unfold endElement
  cases hn : st.nodes with
  | nil => exact ⟨st, rfl⟩
  | cons p rest =>
    obtain ⟨node, m⟩ := p
    dsimp only
    split_ifs <;> exact ⟨_, rfl⟩

theorem runHandler_true (evs : List XmlEv) : ∀ st, (runHandler evs st).1 = true := by
  induction evs with
  | nil => intro st; rfl
  | cons ev evs ih =>
    intro st
    cases ev with
    | startEl n atts =>
      simp only [runHandler, startElement]
      exact ih _
    | endEl n =>
      obtain ⟨st', hst⟩ := endElement_ok n st
      simp only [runHandler, hst]
      exact ih st'

/-- Claim C6: resource-reference resolution walks the scope chain from the
nearest enclosing scope outward and returns the associated brush/transform
when found; a key absent from every scope degrades to the transparent brush
respectively identity transform, and the render always runs to completion
without raising a failure. -/
theorem xps_C6_resource_resolution :
    (∀ pre sc post key b,
        (∀ d ∈ pre, lookupKey key d = none) →
        lookupKey key sc = some (XpsResource.brush b) →
        parseRscRefColor (pre ++ sc :: post) (refString key) = b) ∧
    (∀ pre sc post key m,
        (∀ d ∈ pre, lookupKey key d = none) →
        lookupKey key sc = some (XpsResource.matrix m) →
        parseRscRefMatrix (pre ++ sc :: post) (refString key) = m) ∧
    (∀ scopes key,
        (∀ d ∈ scopes, lookupKey key d = none) →
        parseRscRefColor scopes (refString key) = transparentFill ∧
        parseRscRefMatrix scopes (refString key) = idMatrix) ∧
    (∀ evs scopes, (renderToImageCore evs scopes).isSome = true) := by
  refine ⟨?_, ?_, ?_, ?_⟩
  · intro pre sc post key b hpre hsc
    have hl : lookupRsc (pre ++ sc :: post) key = some (XpsResource.brush b) := by
      rw [lookupRsc_skip pre (sc :: post) key hpre]
      simp [lookupRsc, hsc]
    simp [parseRscRefColor, refKeyOf_refString, hl]
  · intro pre sc post key m hpre hsc
    have hl : lookupRsc (pre ++ sc :: post) key = some (XpsResource.matrix m) := by
      rw [lookupRsc_skip pre (sc :: post) key hpre]
      simp [lookupRsc, hsc]
    simp [parseRscRefMatrix, refKeyOf_refString, hl]
  · intro scopes key h
    have hl : lookupRsc scopes key = none := lookupRsc_none scopes key h
    exact ⟨by simp [parseRscRefColor, refKeyOf_refString, hl],
      by simp [parseRscRefMatrix, refKeyOf_refString, hl]⟩
  · intro evs scopes
    have hr := runHandler_true evs (initHandlerSt scopes)
    rcases hru : runHandler evs (initHandlerSt scopes) with ⟨b, st⟩
    rw [hru] at hr
    simp only at hr
    subst hr
    simp [renderToImageCore, hru]

theorem xps_C6_resource_resolution_witness :
    parseRscRefColor ([] ++ [("redBrush", XpsResource.brush (XpsFill.solid 255 255 0 0))] :: [])
      (refString "redBrush") = XpsFill.solid 255 255 0 0 :=
  xps_C6_resource_resolution.1 [] [("redBrush", XpsResource.brush (XpsFill.solid 255 255 0 0))]
    [] "redBrush" (XpsFill.solid 255 255 0 0) (by simp) (by decide)

theorem applyM_mulM (a b : XpsMatrixTransform) (p : ℚ × ℚ) :
    applyM (mulM a b) p = applyM b (applyM a p) := by
  simp only [applyM, mulM, Prod.mk.injEq]
  constructor <;> ring

theorem mulM_idMatrix (a : XpsMatrixTransform) : mulM a idMatrix = a := by
  simp only [mulM, idMatrix]
  cases a
  simp only [XpsMatrixTransform.mk.injEq]
  norm_num

/-- Claim C7: nested transforms compose in traversal order by
left-multiplication of the child transform onto the accumulated ancestor
transform: a container carrying T1 wrapping a path carrying T2 paints the
path under the composite T1 after T2, and the identity matrix is the default
when no transform attribute is present. -/
theorem xps_C7_transform_composition :
    (∀ scopes t1 t2 d f, ∃ M,
        renderToImageCore
            [XmlEv.startEl "Canvas" [("RenderTransform", t1)],
             XmlEv.startEl "Path" [("RenderTransform", t2), ("Data", d), ("Fill", f)],
             XmlEv.endEl "Path", XmlEv.endEl "Canvas"] scopes =
          some [PaintOp.paintPath (parseAbbreviatedPathData d) (parseRscRefColor scopes f) M] ∧
        ∀ p : ℚ × ℚ, applyM M p =
          applyM (parseRscRefMatrix scopes t1) (applyM (parseRscRefMatrix scopes t2) p)) ∧
    (∀ n atts st, lookupKey "RenderTransform" atts = none →
        ((startElement n atts st).2.nodes.head?).map Prod.snd = some (curMatrixOf st)) ∧
    (∀ scopes, curMatrixOf (initHandlerSt scopes) = idMatrix) := by
  refine ⟨?_, ?_, ?_⟩
  · intro scopes t1 t2 d f
    refine ⟨mulM (parseRscRefMatrix scopes t2) (mulM (parseRscRefMatrix scopes t1) idMatrix),
      ?_, ?_⟩
    · simp [renderToImageCore, runHandler, startElement, endElement, initHandlerSt,
        curMatrixOf, processPath, lookupKey]
    · intro p
      rw [applyM_mulM, mulM_idMatrix]
  · intro n atts st h
    simp [startElement, h]
  · intro scopes
    rfl

theorem xps_C7_transform_composition_witness :
    ((startElement "Canvas" [] (initHandlerSt [])).2.nodes.head?).map Prod.snd =
      some (curMatrixOf (initHandlerSt [])) :=
  xps_C7_transform_composition.2.1 "Canvas" [] (initHandlerSt []) rfl

/-- Claim C8: start-element handling never fails hard — `startElement`
returns true and records every element (name and attributes) on the node
stack, the full SAX run always reports success, and an unrecognized element
kind only pops its stack contribution on end-element, producing no paint
side effect. -/
theorem xps_C8_start_element_never_fails :
    (∀ n atts st, (startElement n atts st).1 = true ∧
        ∃ m, (startElement n atts st).2.nodes = (⟨n, atts⟩, m) :: st.nodes) ∧
    (∀ evs st, (runHandler evs st).1 = true) ∧
    (∀ ln (st : XpsHandlerSt) node m rest, st.nodes = (node, m) :: rest →
        node.name ≠ "Path" → node.name ≠ "Glyphs" →
        endElement ln st = (true, ⟨st.scopes, rest, st.paints⟩)) := by
  refine ⟨?_, ?_, ?_⟩
  · intro n atts st
    exact ⟨rfl, ⟨_, rfl⟩⟩
  · intro evs st
    exact runHandler_true evs st
  · intro ln st node m rest hn h1 h2
    simp [endElement, hn, h1, h2]

theorem xps_C8_start_element_never_fails_witness :
    endElement "Canvas" ⟨[], [(⟨"Canvas", []⟩, idMatrix)], []⟩ = (true, ⟨[], [], []⟩) :=
  xps_C8_start_element_never_fails.2.2 "Canvas" ⟨[], [(⟨"Canvas", []⟩, idMatrix)], []⟩
    ⟨"Canvas", []⟩ idMatrix [] rfl (by decide) (by decide)

theorem runTokens_append_ok {l1 : List AbbPathToken} {st st' : AbbParseSt}
    (h : runTokens l1 st = AbbParseOut.ok st') (l2 : List AbbPathToken) :
    runTokens (l1 ++ l2) st = runTokens l2 st' := by
  induction l1 generalizing st with
  | nil =>
    simp only [runTokens] at h
    cases h
    rfl
  | cons t ts ih =>
    simp only [runTokens, List.cons_append] at h ⊢
    cases hs : stepTok t st with
    | ok st1 =>
      rw [hs] at h
      exact ih h
    | halt segs =>
      rw [hs] at h
      cases h

theorem stepTok_cmd_err (c : Char) (st : AbbParseSt)
    (h : commandArity c.toLower = none ∨ st.pending ≠ []) :
    stepTok (AbbPathToken.abtCommand c) st = AbbParseOut.halt st.acc := by
  rcases h with h | h
  · by_cases hp : st.pending = []
    · simp [stepTok, hp, h]
    · simp [stepTok, hp]
  · simp [stepTok, h]

/-- Claim C1: a parameter count that is not a multiple of the current
command's arity, or an unrecognized command letter, aborts parsing of that
geometry string only — every segment accumulated before the error position
is kept and handed to the canvas by the path paint call, and the page render
always runs to completion, never reporting a page-level failure. -/
theorem xps_C1_parse_error_keeps_prefix :
    (∀ good st, runTokens good initParseSt = AbbParseOut.ok st →
        parseTokens good = st.acc) ∧
    (∀ good rest st c, runTokens good initParseSt = AbbParseOut.ok st →
        (commandArity c.toLower = none ∨ st.pending ≠ []) →
        parseTokens (good ++ AbbPathToken.abtCommand c :: rest) = st.acc) ∧
    (∀ evs scopes, (renderToImageCore evs scopes).isSome = true) ∧
    (∀ ln (st : XpsHandlerSt) node m rest, st.nodes = (node, m) :: rest →
        node.name = "Path" →
        endElement ln st = (true, ⟨st.scopes, rest, st.paints ++
          [PaintOp.paintPath
            (parseAbbreviatedPathData ((lookupKey "Data" node.attributes).getD ""))
            (parseRscRefColor st.scopes ((lookupKey "Fill" node.attributes).getD "")) m]⟩)) := by
  refine ⟨?_, ?_, ?_, ?_⟩
  · intro good st h
    rw [parseTokens, h]
    rfl
  · intro good rest st c h herr
    rw [parseTokens, runTokens_append_ok h]
    simp [runTokens, stepTok_cmd_err c st herr, finishRun]
  · intro evs scopes
    have hr := runHandler_true evs (initHandlerSt scopes)
    rcases hru : runHandler evs (initHandlerSt scopes) with ⟨b, st⟩
    rw [hru] at hr
    simp only at hr
    subst hr
    simp [renderToImageCore, hru]
  · intro ln st node m rest hn h1
    simp [endElement, hn, h1, processPath]

theorem xps_C1_parse_error_keeps_prefix_witness :
    parseTokens ([AbbPathToken.abtCommand 'M', AbbPathToken.abtNumber 0,
        AbbPathToken.abtNumber 0] ++ AbbPathToken.abtCommand 'j' ::
        [AbbPathToken.abtNumber 5]) = [segOf 'M' [0, 0]] :=
  xps_C1_parse_error_keeps_prefix.2.1
    [AbbPathToken.abtCommand 'M', AbbPathToken.abtNumber 0, AbbPathToken.abtNumber 0]
    [AbbPathToken.abtNumber 5] ⟨some ('M', 2), [], [segOf 'M' [0, 0]]⟩ 'j'
    rfl (Or.inl (by decide))

theorem runTokens_group (c : Char) (a : ℕ) :
    ∀ (ps pend : List ℚ) (acc : List PathSegment) (ts : List AbbPathToken),
      ps ≠ [] → pend.length + ps.length = a →
      runTokens (ps.map AbbPathToken.abtNumber ++ ts) ⟨some (c, a), pend, acc⟩ =
        runTokens ts ⟨some (c, a), [], acc ++ [segOf c (pend ++ ps)]⟩ := by
  intro ps
  induction ps with
  | nil => intro pend acc ts h; exact absurd rfl h
  | cons q ps' ih =>
    intro pend acc ts _ hlen
    simp only [List.map_cons, List.cons_append, runTokens, stepTok]
    by_cases hps' : ps' = []
    · subst hps'
      have hl : (pend ++ [q]).length = a := by
        simp only [List.length_cons, List.length_nil] at hlen
        simp [List.length_append]
        omega
      rw [if_pos hl]
      simp
    · have hl : ¬(pend ++ [q]).length = a := by
        have hne : ps'.length ≠ 0 := by simpa using hps'
        simp only [List.length_cons] at hlen
        simp [List.length_append]
        omega
      rw [if_neg hl]
      dsimp only
      simp only [List.append_eq]
      rw [ih (pend ++ [q]) acc ts hps' (by simp at hlen ⊢; omega)]
      simp

theorem runTokens_groups (c : Char) (a : ℕ)
    (groups : List (List ℚ)) (h : ∀ g ∈ groups, g.length = a + 1) :
    ∀ acc, runTokens (groups.flatten.map AbbPathToken.abtNumber) ⟨some (c, a + 1), [], acc⟩ =
      AbbParseOut.ok ⟨some (c, a + 1), [], acc ++ groups.map (fun g => segOf c g)⟩ := by
  induction groups with
  | nil => intro acc; simp [runTokens]
  | cons g gs ih =>
    intro acc
    have hg : g.length = a + 1 := h g (by simp)
    have hgne : g ≠ [] := by
      intro hh
      rw [hh] at hg
      simp at hg
    rw [List.flatten_cons, List.map_append,
      runTokens_group c (a + 1) g [] acc _ hgne (by simpa using hg),
      ih (fun g' hg' => h g' (by simp [hg']))]
    simp

/-- Claim C2: trailing parameter groups without a new command letter repeat
the previous command for each group; in particular
`"m 0,0 l 10,0 10,10"` parses to exactly
`[MoveTo(0,0,rel), LineTo(10,0,rel), LineTo(10,10,rel)]`. -/
theorem xps_C2_implicit_command_repetition :
    parseAbbreviatedPathData "m 0,0 l 10,0 10,10" =
      [⟨'m', true, [0, 0]⟩, ⟨'l', true, [10, 0]⟩, ⟨'l', true, [10, 10]⟩] ∧
    (∀ (c : Char) (a : ℕ) (groups : List (List ℚ)),
        commandArity c.toLower = some (a + 1) →
        (∀ g ∈ groups, g.length = a + 1) →
        parseTokens (AbbPathToken.abtCommand c :: groups.flatten.map AbbPathToken.abtNumber) =
          groups.map (fun g => segOf c g)) := by
  constructor
  · rw [parseAbbreviatedPathData, tokenize,
      show ("m 0,0 l 10,0 10,10").data =
        ['m', ' ', '0', ',', '0', ' ', 'l', ' ', '1', '0', ',', '0', ' ',
          '1', '0', ',', '1', '0'] from rfl]
    norm_num +decide [tokenizeAux, flushTok, feedDigit, startAcc, numAccVal,
      parseTokens, runTokens, stepTok, finishRun, initParseSt, segOf, commandArity,
      show chDigit '0' = 0 from by decide, show chDigit '1' = 1 from by decide]
  · intro c a groups hA hg
    rw [parseTokens]
    simp only [runTokens, stepTok, initParseSt]
    rw [if_pos trivial, hA]
    dsimp only
    rw [runTokens_groups c a groups hg []]
    simp [finishRun]

theorem xps_C2_implicit_command_repetition_witness :
    parseTokens (AbbPathToken.abtCommand 'l' ::
        ([[1, 2], [3, 4]] : List (List ℚ)).flatten.map AbbPathToken.abtNumber) =
      ([[1, 2], [3, 4]] : List (List ℚ)).map (fun g => segOf 'l' g) :=
  xps_C2_implicit_command_repetition.2 'l' 1 [[1, 2], [3, 4]] (by decide)
    (by decide)

theorem flushTok_none : flushTok none = [] := rfl

theorem tok_flush_head (c : Char) (h1 : c.isDigit = false) (h2 : c ≠ '.')
    (st : Option NumAcc) (r : List Char) :
    tokenizeAux (c :: r) st = flushTok st ++ tokenizeAux (c :: r) none := by
  simp only [tokenizeAux, h1, h2]
  split_ifs <;> simp_all [flushTok_none]

theorem tok_feed_digits (ds : List Char) (h : ∀ c ∈ ds, c.isDigit = true) :
    ∀ (a : NumAcc) (rest : List Char),
      tokenizeAux (ds ++ rest) (some a) = tokenizeAux rest (some (ds.foldl feedDigit a)) := by
  induction ds with
  | nil => intro a rest; rfl
  | cons c ds' ih =>
    intro a rest
    have hc : c.isDigit = true := h c (by simp)
    simp only [List.cons_append, tokenizeAux]
    rw [if_pos hc, List.foldl_cons]
    exact ih (fun c' hc' => h c' (by simp [hc'])) (feedDigit a c) rest

theorem tok_feed_digits_none (ds : List Char) (hne : ds ≠ []) (h : ∀ c ∈ ds, c.isDigit = true)
    (rest : List Char) :
    tokenizeAux (ds ++ rest) none = tokenizeAux rest (some (ds.foldl feedDigit startAcc)) := by
  cases ds with
  | nil => exact absurd rfl hne
  | cons c ds' =>
    have hc : c.isDigit = true := h c (by simp)
    simp only [List.cons_append, tokenizeAux]
    rw [if_pos hc, List.foldl_cons]
    exact tok_feed_digits ds' (fun c' hc' => h c' (by simp [hc'])) (feedDigit startAcc c) rest

theorem tok_dot (a : NumAcc) (h : a.dot = false) (r : List Char) :
    tokenizeAux ('.' :: r) (some a) =
      tokenizeAux r (some ⟨a.neg, a.ip, true, a.fp, a.fpd, a.digs⟩) := by
  simp only [tokenizeAux]
  rw [if_neg (by decide), if_neg (by decide), if_neg (by decide), if_pos trivial]
  simp [h]

theorem tok_comma (st : Option NumAcc) (r : List Char) :
    tokenizeAux (',' :: r) st = flushTok st ++ AbbPathToken.abtComma :: tokenizeAux r none := by
  simp only [tokenizeAux]
  rw [if_neg (by decide), if_neg (by decide), if_pos trivial]

theorem tok_minus (st : Option NumAcc) (r : List Char) :
    tokenizeAux ('-' :: r) st =
      flushTok st ++ tokenizeAux r (some ⟨true, 0, false, 0, 0, false⟩) := by
  simp only [tokenizeAux]
  rw [if_neg (by decide), if_neg (by decide), if_neg (by decide), if_neg (by decide),
    if_pos trivial]

theorem tok_cmd_none (c : Char) (h1 : c.isDigit = false) (h2 : c ≠ ' ') (h3 : c ≠ ',')
    (h4 : c ≠ '.') (h5 : c ≠ '-') (h6 : c ≠ '+') (h7 : c.isAlpha = true) (r : List Char) :
    tokenizeAux (c :: r) none = AbbPathToken.abtCommand c :: tokenizeAux r none := by
  simp only [tokenizeAux]
  rw [if_neg (by simp [h1]), if_neg h2, if_neg h3, if_neg h4, if_neg h5, if_neg h6, if_pos h7]
  rfl

theorem foldl_feedDigit_int (ds : List Char) :
    ∀ a : NumAcc, a.dot = false →
      ds.foldl feedDigit a =
        ⟨a.neg, ds.foldl (fun x c => 10 * x + chDigit c) a.ip, false, a.fp, a.fpd,
          a.digs || !ds.isEmpty⟩ := by
  induction ds with
  | nil =>
    intro a h
    cases a
    simp_all
  | cons c ds' ih =>
    intro a h
    rw [List.foldl_cons, List.foldl_cons]
    rw [show feedDigit a c = ⟨a.neg, 10 * a.ip + chDigit c, false, a.fp, a.fpd, true⟩ from by
      simp [feedDigit, h]]
    rw [ih _ rfl]
    simp

theorem foldl_feedDigit_frac (ds : List Char) :
    ∀ a : NumAcc, a.dot = true →
      ds.foldl feedDigit a =
        ⟨a.neg, a.ip, true, ds.foldl (fun x c => 10 * x + chDigit c) a.fp,
          a.fpd + ds.length, a.digs || !ds.isEmpty⟩ := by
  induction ds with
  | nil =>
    intro a h
    cases a
    simp_all
  | cons c ds' ih =>
    intro a h
    rw [List.foldl_cons, List.foldl_cons]
    rw [show feedDigit a c = ⟨a.neg, a.ip, true, 10 * a.fp + chDigit c, a.fpd + 1, true⟩ from by
      simp [feedDigit, h]]
    rw [ih _ rfl]
    simp
    omega

theorem chDigit_ofNat (d : ℕ) (h : d < 10) :
    chDigit (Char.ofNat (48 + d)) = d ∧ (Char.ofNat (48 + d)).isDigit = true := by
  interval_cases d <;> exact ⟨by decide, by decide⟩

theorem natToChars_digits (n : ℕ) : ∀ c ∈ natToChars n, c.isDigit = true := by
  intro c hc
  simp only [natToChars] at hc
  obtain ⟨d, hd, rfl⟩ := List.mem_map.mp hc
  have hd10 : d < 10 := Nat.digits_lt_base (by norm_num) (List.mem_reverse.mp hd)
  exact (chDigit_ofNat d hd10).2

theorem natToCharsNN_digits (n : ℕ) : ∀ c ∈ natToCharsNN n, c.isDigit = true := by
  intro c hc
  by_cases h : n = 0
  · simp [natToCharsNN, h] at hc
    subst hc
    decide
  · rw [natToCharsNN, if_neg h] at hc
    exact natToChars_digits n c hc

theorem natToCharsNN_ne_nil (n : ℕ) : natToCharsNN n ≠ [] := by
  by_cases h : n = 0
  · simp [natToCharsNN, h]
  · simp [natToCharsNN, h, natToChars, Nat.digits_ne_nil_iff_ne_zero]

theorem padDigits_digits (k m : ℕ) : ∀ c ∈ padDigits k m, c.isDigit = true := by
  intro c hc
  rw [padDigits] at hc
  rcases List.mem_append.mp hc with h | h
  · rw [List.eq_of_mem_replicate h]
    decide
  · exact natToChars_digits m c h

theorem digitsLen_le (m k : ℕ) (h : m < 10 ^ k) : (Nat.digits 10 m).length ≤ k := by
  rcases Nat.eq_zero_or_pos m with rfl | hm
  · simp
  · by_contra hk
    push_neg at hk
    have h1 : 10 ^ (Nat.digits 10 m).length ≤ 10 * m :=
      Nat.base_pow_length_digits_le 10 m (by norm_num) (by omega)
    have h2 : (10 : ℕ) ^ (k + 1) ≤ 10 ^ (Nat.digits 10 m).length :=
      Nat.pow_le_pow_right (by norm_num) hk
    have h3 : 10 * 10 ^ k ≤ 10 * m := by
      calc 10 * 10 ^ k = 10 ^ (k + 1) := by ring
      _ ≤ _ := le_trans h2 h1
    have : 10 ^ k ≤ m := Nat.le_of_mul_le_mul_left h3 (by norm_num)
    omega

theorem padDigits_length (k m : ℕ) (h : m < 10 ^ k) : (padDigits k m).length = k := by
  have hlen : (natToChars m).length ≤ k := by
    rw [natToChars]
    simpa using digitsLen_le m k h
  simp [padDigits]
  omega

theorem foldl_digit_map (L : List ℕ) (hL : ∀ d ∈ L, d < 10) :
    ∀ i : ℕ, List.foldl (fun x c => 10 * x + chDigit c) i
        (L.map (fun d => Char.ofNat (48 + d))) =
      List.foldl (fun x d => 10 * x + d) i L := by
  induction L with
  | nil => intro i; rfl
  | cons d T ih =>
    intro i
    rw [List.map_cons, List.foldl_cons, List.foldl_cons,
      (chDigit_ofNat d (hL d (by simp))).1]
    exact ih (fun d' hd' => hL d' (by simp [hd'])) _

theorem foldl_rev_digits (L : List ℕ) :
    ∀ i : ℕ, List.foldl (fun x d => 10 * x + d) i L.reverse =
      i * 10 ^ L.length + Nat.ofDigits 10 L := by
  induction L with
  | nil => intro i; simp
  | cons d T ih =>
    intro i
    rw [List.reverse_cons, List.foldl_append, ih i]
    simp only [List.foldl_cons, List.foldl_nil, Nat.ofDigits_cons, List.length_cons]
    rw [pow_succ]
    ring

theorem foldl_natToChars (n : ℕ) (i : ℕ) :
    List.foldl (fun x c => 10 * x + chDigit c) i (natToChars n) =
      i * 10 ^ (Nat.digits 10 n).length + n := by
  rw [natToChars,
    foldl_digit_map (Nat.digits 10 n).reverse
      (fun d hd => Nat.digits_lt_base (by norm_num) (List.mem_reverse.mp hd)) i]
  rw [show (Nat.digits 10 n).reverse = ((Nat.digits 10 n).reverse.reverse).reverse from by
    simp]
  rw [foldl_rev_digits]
  simp [Nat.ofDigits_digits]

theorem foldl_natToCharsNN (n : ℕ) :
    List.foldl (fun x c => 10 * x + chDigit c) 0 (natToCharsNN n) = n := by
  by_cases h : n = 0
  · subst h
    decide
  · rw [natToCharsNN, if_neg h, foldl_natToChars]
    simp

theorem foldl_padDigits (k m : ℕ) :
    List.foldl (fun x c => 10 * x + chDigit c) 0 (padDigits k m) = m := by
  rw [padDigits, List.foldl_append]
  have hz : ∀ z, List.foldl (fun x c => 10 * x + chDigit c) 0 (List.replicate z '0') = 0 := by
    intro z
    induction z with
    | zero => rfl
    | succ z ih =>
      rw [List.replicate_succ, List.foldl_cons,
        show (10 * 0 + chDigit '0') = 0 from by decide]
      exact ih
  rw [hz, foldl_natToChars]
  simp

theorem dvd_ten_pow_self (d : ℕ) (hd : 0 < d) (K : ℕ) (h : d ∣ 10 ^ K) : d ∣ 10 ^ d := by
  have h10 : (10 : ℕ) ^ K = 2 ^ K * 5 ^ K := by rw [← Nat.mul_pow]
  rw [h10] at h
  rcases Nat.dvd_mul.mp h with ⟨d2, d5, h2, h5, hmul⟩
  rcases (Nat.dvd_prime_pow Nat.prime_two).mp h2 with ⟨a, _, rfl⟩
  rcases (Nat.dvd_prime_pow Nat.prime_five).mp h5 with ⟨b, _, rfl⟩
  have ha : a ≤ d := by
    have hdvd : 2 ^ a ∣ d := ⟨5 ^ b, hmul.symm⟩
    have h1 : 2 ^ a ≤ d := Nat.le_of_dvd hd hdvd
    have := Nat.lt_two_pow a
    omega
  have hb : b ≤ d := by
    have hdvd : 5 ^ b ∣ d := ⟨2 ^ a, by rw [← hmul]; ring⟩
    have h1 : 5 ^ b ≤ d := Nat.le_of_dvd hd hdvd
    have := Nat.lt_pow_self (show (1 : ℕ) < 5 by norm_num) b
    omega
  have hfin : 2 ^ a * 5 ^ b ∣ 10 ^ d := by
    calc 2 ^ a * 5 ^ b ∣ 2 ^ d * 5 ^ d := mul_dvd_mul (pow_dvd_pow 2 ha) (pow_dvd_pow 5 hb)
    _ = 10 ^ d := by rw [← Nat.mul_pow]
  exact hmul ▸ hfin

theorem numAccVal_den_dvd (a : NumAcc) : (numAccVal a).den ∣ 10 ^ a.fpd := by
  have key : numAccVal a =
      Rat.divInt ((if a.neg then (-1 : ℤ) else 1) * ((a.ip : ℤ) * 10 ^ a.fpd + a.fp))
        ((10 : ℤ) ^ a.fpd) := by
    rw [Rat.divInt_eq_div, numAccVal]
    have h10 : ((10 : ℚ) ^ a.fpd) ≠ 0 := by positivity
    cases hn : a.neg <;> push_cast <;> field_simp
  have hd := Rat.den_dvd ((if a.neg then (-1 : ℤ) else 1) * ((a.ip : ℤ) * 10 ^ a.fpd + a.fp))
    ((10 : ℤ) ^ a.fpd)
  rw [← key] at hd
  have hcast : ((numAccVal a).den : ℤ) ∣ (((10 ^ a.fpd : ℕ) : ℤ)) := by
    push_cast
    exact hd
  exact_mod_cast hcast

theorem num_eq_mul (q : ℚ) : ((q.num : ℚ)) = q * (q.den : ℚ) := by
  have hden : ((q.den : ℚ)) ≠ 0 := by positivity
  calc (q.num : ℚ) = (q.num : ℚ) / q.den * q.den := by field_simp
  _ = q * q.den := by rw [Rat.num_div_den]

theorem decScaled_cast (q : ℚ) (h : q.den ∣ 10 ^ q.den) :
    ((decScaled q : ℕ) : ℚ) = |q| * 10 ^ q.den := by
  have hden : ((q.den : ℚ)) ≠ 0 := by positivity
  have habs : ((q.num.natAbs : ℚ)) = |q| * (q.den : ℚ) := by
    rw [show ((q.num.natAbs : ℚ)) = |(q.num : ℚ)| from by push_cast [Int.cast_natAbs]; ring]
    rw [num_eq_mul, abs_mul, abs_of_nonneg (show (0:ℚ) ≤ (q.den : ℚ) by positivity)]
  rw [decScaled]
  push_cast [Nat.cast_div h hden]
  rw [habs]
  field_simp
  ring

theorem div_mod_val (q : ℚ) (h : q.den ∣ 10 ^ q.den) :
    ((decScaled q / 10 ^ q.den : ℕ) : ℚ) + ((decScaled q % 10 ^ q.den : ℕ) : ℚ) / (10 : ℚ) ^ q.den
      = |q| := by
  have hp : ((10 : ℚ) ^ q.den) ≠ 0 := by positivity
  have hmod : (10 ^ q.den) * (decScaled q / 10 ^ q.den) + decScaled q % 10 ^ q.den = decScaled q :=
    Nat.div_add_mod _ _
  have hc : ((10 : ℚ) ^ q.den) * ((decScaled q / 10 ^ q.den : ℕ) : ℚ) +
      ((decScaled q % 10 ^ q.den : ℕ) : ℚ) = ((decScaled q : ℕ) : ℚ) := by
    exact_mod_cast congrArg (fun n : ℕ => (n : ℚ)) hmod
  field_simp
  rw [decScaled_cast q h] at hc
  linarith [hc]

theorem numAccVal_pos_case (q : ℚ) (h : q.den ∣ 10 ^ q.den) (hq : ¬ q.num < 0) :
    numAccVal ⟨false, decScaled q / 10 ^ q.den, true, decScaled q % 10 ^ q.den, q.den, true⟩
      = q := by
  rw [numAccVal]
  simp only [if_neg (by simp : ¬ (false = true))]
  rw [one_mul, div_mod_val q h]
  exact abs_of_nonneg (Rat.num_nonneg.mp (by omega))

theorem numAccVal_neg_case (q : ℚ) (h : q.den ∣ 10 ^ q.den) (hq : q.num < 0) :
    numAccVal ⟨true, decScaled q / 10 ^ q.den, true, decScaled q % 10 ^ q.den, q.den, true⟩
      = q := by
  rw [numAccVal]
  rw [if_pos (by trivial)]
  rw [div_mod_val q h]
  have hneg : q < 0 := Rat.num_neg.mp hq
  rw [abs_of_neg hneg]
  ring

theorem serNum_tok (q : ℚ) (hq : q.den ∣ 10 ^ q.den) (rest : List Char) (hb : numBoundary rest) :
    tokenizeAux (serializeNum q ++ rest) none =
      AbbPathToken.abtNumber q :: tokenizeAux rest none := by
  have hfrac_lt : decScaled q % 10 ^ q.den < 10 ^ q.den := Nat.mod_lt _ (by positivity)
  have hip_digits := natToCharsNN_digits (decScaled q / 10 ^ q.den)
  have hip_ne := natToCharsNN_ne_nil (decScaled q / 10 ^ q.den)
  have hfr_digits := padDigits_digits q.den (decScaled q % 10 ^ q.den)
  have hfr_len : (padDigits q.den (decScaled q % 10 ^ q.den)).length = q.den :=
    padDigits_length _ _ hfrac_lt
  have hflush : ∀ a : NumAcc, a.digs = true → numAccVal a = q →
      tokenizeAux rest (some a) = AbbPathToken.abtNumber q :: tokenizeAux rest none := by
    intro a hd hval
    cases rest with
    | nil => simp [tokenizeAux, flushTok, hd, hval]
    | cons c r =>
      obtain ⟨hb1, hb2⟩ := hb
      rw [tok_flush_head c hb1 hb2 (some a) r]
      simp [flushTok, hd, hval]
  have hie : (natToCharsNN (decScaled q / 10 ^ q.den)).isEmpty = false := by
    rcases hni : natToCharsNN (decScaled q / 10 ^ q.den) with _ | ⟨c0, cs0⟩
    · exact absurd hni hip_ne
    · rfl
  have hip : ∀ (b bd : Bool),
      (natToCharsNN (decScaled q / 10 ^ q.den)).foldl feedDigit ⟨b, 0, false, 0, 0, bd⟩ =
        ⟨b, decScaled q / 10 ^ q.den, false, 0, 0, true⟩ := by
    intro b bd
    rw [foldl_feedDigit_int _ _ rfl]
    dsimp only
    rw [foldl_natToCharsNN, hie]
    simp
  have hmid2 : ∀ b : Bool,
      tokenizeAux (('.' :: padDigits q.den (decScaled q % 10 ^ q.den)) ++ rest)
        (some ⟨b, decScaled q / 10 ^ q.den, false, 0, 0, true⟩) =
        tokenizeAux rest
          (some ⟨b, decScaled q / 10 ^ q.den, true, decScaled q % 10 ^ q.den, q.den, true⟩) := by
    intro b
    rw [List.cons_append, tok_dot _ rfl, tok_feed_digits _ hfr_digits,
      foldl_feedDigit_frac _ _ rfl]
    dsimp only
    rw [foldl_padDigits, hfr_len]
    simp
  by_cases hs : q.num < 0
  · have hser : serializeNum q = '-' :: (natToCharsNN (decScaled q / 10 ^ q.den) ++
        '.' :: padDigits q.den (decScaled q % 10 ^ q.den)) := by
      rw [serializeNum, if_pos hq, if_pos hs]
      simp
    rw [hser, List.cons_append, tok_minus, flushTok_none, List.nil_append,
      List.append_assoc, tok_feed_digits _ hip_digits, hip true false, hmid2 true]
    exact hflush _ rfl (numAccVal_neg_case q hq hs)
  · have hser : serializeNum q = natToCharsNN (decScaled q / 10 ^ q.den) ++
        '.' :: padDigits q.den (decScaled q % 10 ^ q.den) := by
      rw [serializeNum, if_pos hq, if_neg hs]
      simp
    rw [hser, List.append_assoc, tok_feed_digits_none _ hip_ne hip_digits,
      show startAcc = (⟨false, 0, false, 0, 0, false⟩ : NumAcc) from rfl,
      hip false false, hmid2 false]
    exact hflush _ rfl (numAccVal_pos_case q hq hs)

theorem serParams_tok : ∀ (ps : List ℚ), (∀ q ∈ ps, q.den ∣ 10 ^ q.den) →
    ∀ tail : List Char, numBoundary tail →
      ∃ ts, NumFeed ts ps ∧
        tokenizeAux (serializeParams ps ++ tail) none = ts ++ tokenizeAux tail none := by
  intro ps
  induction ps with
  | nil =>
    intro _ tail _
    exact ⟨[], NumFeed.nil, by simp [serializeParams]⟩
  | cons q ps' ih =>
    intro h tail hb
    cases ps' with
    | nil =>
      refine ⟨[AbbPathToken.abtNumber q], NumFeed.num NumFeed.nil, ?_⟩
      rw [show serializeParams [q] = serializeNum q from rfl,
        serNum_tok q (h q (by simp)) tail hb]
      rfl
    | cons q2 tl =>
      obtain ⟨ts', hfeed, htok⟩ := ih (fun r hr => h r (by simp [hr])) tail hb
      refine ⟨AbbPathToken.abtNumber q :: AbbPathToken.abtComma :: ts',
        NumFeed.num (NumFeed.comma hfeed), ?_⟩
      rw [show serializeParams (q :: q2 :: tl) =
          serializeNum q ++ ',' :: serializeParams (q2 :: tl) from rfl,
        List.append_assoc, List.cons_append,
        serNum_tok q (h q (by simp)) (',' :: (serializeParams (q2 :: tl) ++ tail))
          (⟨by decide, by decide⟩ : (','.isDigit = false ∧ ',' ≠ '.')),
        tok_comma, flushTok_none, List.nil_append, htok]
      rfl

theorem runTokens_numfeed_empty {ts : List AbbPathToken} {ps : List ℚ} (hf : NumFeed ts ps)
    (hps : ps = []) : ∀ (st : AbbParseSt) (more : List AbbPathToken),
      runTokens (ts ++ more) st = runTokens more st := by
  induction hf with
  | nil => intro st more; rfl
  | comma hf' ih =>
    intro st more
    simp only [List.cons_append, runTokens, stepTok]
    exact ih hps st more
  | num hf' ih => simp at hps

theorem runTokens_numfeed {ts : List AbbPathToken} {ps : List ℚ} (hf : NumFeed ts ps) :
    ps ≠ [] → ∀ (pend : List ℚ) (acc : List PathSegment) (more : List AbbPathToken)
      (c : Char) (a : ℕ), (pend ++ ps).length = a →
      runTokens (ts ++ more) ⟨some (c, a), pend, acc⟩ =
        runTokens more ⟨some (c, a), [], acc ++ [segOf c (pend ++ ps)]⟩ := by
  induction hf with
  | nil => intro hne; exact absurd rfl hne
  | comma hf' ih =>
    intro hne pend acc more c a hlen
    simp only [List.cons_append, runTokens, stepTok]
    exact ih hne pend acc more c a hlen
  | num hf' ih =>
    rename_i ts' ps' q
    intro _ pend acc more c a hlen
    simp only [List.cons_append, runTokens, stepTok]
    by_cases hps' : ps' = []
    · subst hps'
      have hl : (pend ++ [q]).length = a := by simpa using hlen
      rw [if_pos hl]
      dsimp only
      simp only [List.append_eq]
      rw [runTokens_numfeed_empty hf' rfl _ more]
    · have hl : ¬ (pend ++ [q]).length = a := by
        have hx : ps'.length ≠ 0 := by simpa using hps'
        simp only [List.length_append, List.length_cons, List.length_nil] at hlen ⊢
        omega
      rw [if_neg hl]
      dsimp only
      simp only [List.append_eq]
      rw [ih hps' (pend ++ [q]) acc more c a (by simp at hlen ⊢; omega)]
      simp

theorem arity_char_cases {c : Char} {n : ℕ} (h : commandArity c = some n) :
    c = 'm' ∨ c = 'l' ∨ c = 'h' ∨ c = 'v' ∨ c = 'c' ∨ c = 's' ∨ c = 'q' ∨ c = 't' ∨
      c = 'a' ∨ c = 'z' := by
  rw [commandArity] at h
  split_ifs at h with h1 h2 h3 h4 h5 h6 h7 <;> tauto

theorem cmdCharOf_props (s : PathSegment) {n : ℕ} (h : commandArity s.command = some n) :
    (cmdCharOf s).isDigit = false ∧ cmdCharOf s ≠ ' ' ∧ cmdCharOf s ≠ ',' ∧
    cmdCharOf s ≠ '.' ∧ cmdCharOf s ≠ '-' ∧ cmdCharOf s ≠ '+' ∧
    (cmdCharOf s).isAlpha = true ∧ (cmdCharOf s).toLower = s.command ∧
    (cmdCharOf s).isLower = s.isRelative := by
  rcases arity_char_cases h with h' | h' | h' | h' | h' | h' | h' | h' | h' | h' <;>
    cases hr : s.isRelative <;> simp +decide [cmdCharOf, hr, h']

theorem flushTok_decimal (st : Option NumAcc) (q : ℚ)
    (h : AbbPathToken.abtNumber q ∈ flushTok st) : ∃ a : NumAcc, q = numAccVal a := by
  cases st with
  | none => simp [flushTok] at h
  | some a =>
    rw [flushTok] at h
    by_cases hd : a.digs = true
    · rw [if_pos hd] at h
      rw [List.mem_singleton] at h
      exact ⟨a, by injection h⟩
    · rw [if_neg hd] at h
      simp at h

theorem tok_decimal (cs : List Char) : ∀ (st : Option NumAcc) (q : ℚ),
    AbbPathToken.abtNumber q ∈ tokenizeAux cs st → ∃ a : NumAcc, q = numAccVal a := by
  induction cs with
  | nil => intro st q h; exact flushTok_decimal st q h
  | cons c rest ih =>
    intro st q h
    simp only [tokenizeAux] at h
    by_cases h1 : c.isDigit = true
    · rw [if_pos h1] at h
      exact ih _ q h
    · rw [if_neg h1] at h
      by_cases h2 : c = ' '
      · rw [if_pos h2] at h
        rcases List.mem_append.mp h with h | h
        · exact flushTok_decimal st q h
        · exact ih _ q h
      · rw [if_neg h2] at h
        by_cases h3 : c = ','
        · rw [if_pos h3] at h
          rcases List.mem_append.mp h with h | h
          · exact flushTok_decimal st q h
          · rcases List.mem_cons.mp h with h | h
            · simp at h
            · exact ih _ q h
        · rw [if_neg h3] at h
          by_cases h4 : c = '.'
          · rw [if_pos h4] at h
            cases st with
            | none => exact ih _ q h
            | some a =>
              dsimp only at h
              by_cases hd : a.dot = true
              · rw [if_pos hd] at h
                rcases List.mem_append.mp h with h | h
                · exact flushTok_decimal _ q h
                · exact ih _ q h
              · rw [if_neg hd] at h
                exact ih _ q h
          · rw [if_neg h4] at h
            by_cases h5 : c = '-'
            · rw [if_pos h5] at h
              rcases List.mem_append.mp h with h | h
              · exact flushTok_decimal st q h
              · exact ih _ q h
            · rw [if_neg h5] at h
              by_cases h6 : c = '+'
              · rw [if_pos h6] at h
                rcases List.mem_append.mp h with h | h
                · exact flushTok_decimal st q h
                · exact ih _ q h
              · rw [if_neg h6] at h
                by_cases h7 : c.isAlpha = true
                · rw [if_pos h7] at h
                  rcases List.mem_append.mp h with h | h
                  · exact flushTok_decimal st q h
                  · rcases List.mem_cons.mp h with h | h
                    · simp at h
                    · exact ih _ q h
                · rw [if_neg h7] at h
                  exact flushTok_decimal st q h

theorem runTokens_WF : ∀ (ts : List AbbPathToken) (st : AbbParseSt),
    (∀ q, AbbPathToken.abtNumber q ∈ ts → decimalQ q) →
    (∀ sg ∈ st.acc, WFSeg sg) →
    (∀ c a, st.cur = some (c, a) → commandArity c.toLower = some a) →
    (∀ q ∈ st.pending, decimalQ q) →
    ∀ sg ∈ finishRun (runTokens ts st), WFSeg sg := by
  intro ts
  induction ts with
  | nil =>
    intro st _ hacc _ _ sg hsg
    exact hacc sg hsg
  | cons t ts' ih =>
    intro st hts hacc hcur hpend sg hsg
    cases t with
    | abtComma =>
      simp only [runTokens, stepTok] at hsg
      exact ih st (fun q hq => hts q (by simp [hq])) hacc hcur hpend sg hsg
    | abtEOF =>
      simp only [runTokens, stepTok, finishRun] at hsg
      exact hacc sg hsg
    | abtCommand c =>
      simp only [runTokens, stepTok] at hsg
      by_cases hp : st.pending = []
      · rw [if_pos hp] at hsg
        cases hA : commandArity c.toLower with
        | none =>
          rw [hA] at hsg
          simp only [finishRun] at hsg
          exact hacc sg hsg
        | some a0 =>
          cases a0 with
          | zero =>
            rw [hA] at hsg
            dsimp only at hsg
            refine ih _ (fun q hq => hts q (by simp [hq])) ?_ ?_ ?_ sg hsg
            · intro sg' hsg'
              rcases List.mem_append.mp hsg' with hm | hm
              · exact hacc sg' hm
              · rw [List.mem_singleton] at hm
                subst hm
                exact ⟨by simpa [segOf] using hA, by simp [segOf]⟩
            · intro c' a' hc'
              simp at hc'
            · intro q hq
              simp at hq
          | succ a1 =>
            rw [hA] at hsg
            dsimp only at hsg
            refine ih _ (fun q hq => hts q (by simp [hq])) ?_ ?_ ?_ sg hsg
            · exact hacc
            · intro c' a' hc'
              obtain ⟨rfl, rfl⟩ : c' = c ∧ a' = a1 + 1 := by simpa using hc'.symm
              exact hA
            · intro q hq
              simp at hq
      · rw [if_neg hp] at hsg
        simp only [finishRun] at hsg
        exact hacc sg hsg
    | abtNumber q =>
      simp only [runTokens, stepTok] at hsg
      cases hc : st.cur with
      | none =>
        rw [hc] at hsg
        simp only [finishRun] at hsg
        exact hacc sg hsg
      | some pr =>
        obtain ⟨c, a⟩ := pr
        rw [hc] at hsg
        dsimp only at hsg
        have hqd : decimalQ q := hts q (by simp)
        by_cases hl : (st.pending ++ [q]).length = a
        · rw [if_pos hl] at hsg
          dsimp only at hsg
          refine ih _ (fun q' hq' => hts q' (by simp [hq'])) ?_ ?_ ?_ sg hsg
          · intro sg' hsg'
            rcases List.mem_append.mp hsg' with hm | hm
            · exact hacc sg' hm
            · rw [List.mem_singleton] at hm
              subst hm
              refine ⟨?_, ?_⟩
              · show commandArity (segOf c (st.pending ++ [q])).command =
                  some (segOf c (st.pending ++ [q])).params.length
                simp only [segOf]
                rw [hl]
                exact hcur c a hc
              · intro q' hq'
                simp only [segOf] at hq'
                rcases List.mem_append.mp hq' with hm' | hm'
                · exact hpend q' hm'
                · rw [List.mem_singleton] at hm'
                  subst hm'
                  exact hqd
          · intro c' a' hc'
            obtain ⟨rfl, rfl⟩ : c' = c ∧ a' = a := by simpa using hc'.symm
            exact hcur _ _ hc
          · intro q' hq'
            simp at hq'
        · rw [if_neg hl] at hsg
          dsimp only at hsg
          refine ih _ (fun q' hq' => hts q' (by simp [hq'])) ?_ ?_ ?_ sg hsg
          · exact hacc
          · intro c' a' hc'
            obtain ⟨rfl, rfl⟩ : c' = c ∧ a' = a := by simpa using hc'.symm
            exact hcur _ _ hc
          · intro q' hq'
            rcases List.mem_append.mp hq' with hm | hm
            · exact hpend q' hm
            · rw [List.mem_singleton] at hm
              subst hm
              exact hqd

theorem parse_WF (s : String) : ∀ sg ∈ parseAbbreviatedPathData s, WFSeg sg := by
  intro sg hsg
  refine runTokens_WF (tokenize s.data) initParseSt ?_ ?_ ?_ ?_ sg hsg
  · intro q hq
    obtain ⟨a, rfl⟩ := tok_decimal s.data none q hq
    exact ⟨a.fpd, numAccVal_den_dvd a⟩
  · intro sg' hm
    simp [initParseSt] at hm
  · intro c a hm
    simp [initParseSt] at hm
  · intro q hm
    simp [initParseSt] at hm

theorem segOf_cmdCharOf (s : PathSegment) {n : ℕ} (h : commandArity s.command = some n) :
    segOf (cmdCharOf s) s.params = s := by
  obtain ⟨_, _, _, _, _, _, _, p8, p9⟩ := cmdCharOf_props s h
  cases s with
  | mk cmd rel params =>
    simp only [segOf]
    exact congrArg₂ (fun x y => PathSegment.mk x y params) p8 p9

theorem parse_ser_aux : ∀ (segs : List PathSegment), (∀ s ∈ segs, WFSeg s) →
    ∀ (cur : Option (Char × ℕ)) (acc : List PathSegment),
      ∃ cur', runTokens (tokenizeAux (serializeSegs segs) none) ⟨cur, [], acc⟩ =
        AbbParseOut.ok ⟨cur', [], acc ++ segs⟩ := by
  intro segs
  induction segs with
  | nil =>
    intro _ cur acc
    exact ⟨cur, by simp [serializeSegs, tokenizeAux, flushTok, runTokens]⟩
  | cons s rest ih =>
    intro h cur acc
    have hwf : WFSeg s := h s (by simp)
    obtain ⟨hA, hdec⟩ := hwf
    obtain ⟨p1, p2, p3, p4, p5, p6, p7, p8, p9⟩ := cmdCharOf_props s hA
    have hboundary : numBoundary (serializeSegs rest) := by
      cases rest with
      | nil => exact trivial
      | cons s2 r2 =>
        have hwf2 := h s2 (by simp)
        obtain ⟨r1, _, _, r4, _, _, _, _, _⟩ := cmdCharOf_props s2 hwf2.1
        show numBoundary ((cmdCharOf s2 :: serializeParams s2.params) ++ serializeSegs r2)
        rw [List.cons_append]
        exact ⟨r1, r4⟩
    obtain ⟨ts, hfeed, htok⟩ := serParams_tok s.params
      (fun q hq => by
        obtain ⟨K, hK⟩ := hdec q hq
        exact dvd_ten_pow_self q.den q.den_pos K hK)
      (serializeSegs rest) hboundary
    have htok2 : tokenizeAux (serializeSegs (s :: rest)) none =
        AbbPathToken.abtCommand (cmdCharOf s) ::
          (ts ++ tokenizeAux (serializeSegs rest) none) := by
      rw [show serializeSegs (s :: rest) = serializeSeg s ++ serializeSegs rest from rfl,
        show serializeSeg s = cmdCharOf s :: serializeParams s.params from rfl,
        List.cons_append,
        tok_cmd_none _ p1 p2 p3 p4 p5 p6 p7, htok]
    rw [htok2]
    cases hps : s.params with
    | nil =>
      have hA0 : commandArity (cmdCharOf s).toLower = some 0 := by
        rw [p8]
        rw [hps] at hA
        simpa using hA
      have hseq : segOf (cmdCharOf s) [] = s := by
        have := segOf_cmdCharOf s hA
        rwa [hps] at this
      simp only [runTokens, stepTok]
      rw [if_pos trivial, hA0]
      dsimp only
      rw [hps] at hfeed
      rw [runTokens_numfeed_empty hfeed rfl _ _]
      obtain ⟨cur', hrun⟩ := ih (fun s' hs' => h s' (by simp [hs'])) none (acc ++ [segOf (cmdCharOf s) []])
      rw [hrun, hseq]
      exact ⟨cur', by simp⟩
    | cons q0 ptl =>
      have hA1 : commandArity (cmdCharOf s).toLower = some (ptl.length + 1) := by
        rw [p8]
        rw [hps] at hA
        simpa using hA
      have hseq : segOf (cmdCharOf s) s.params = s := segOf_cmdCharOf s hA
      simp only [runTokens, stepTok]
      rw [if_pos trivial, hA1]
      dsimp only
      rw [hps] at hfeed
      rw [runTokens_numfeed hfeed (by simp) [] acc _ (cmdCharOf s) (ptl.length + 1)
        (by simp)]
      obtain ⟨cur', hrun⟩ := ih (fun s' hs' => h s' (by simp [hs']))
        (some (cmdCharOf s, ptl.length + 1)) (acc ++ [segOf (cmdCharOf s) ([] ++ q0 :: ptl)])
      rw [hrun]
      refine ⟨cur', ?_⟩
      have : segOf (cmdCharOf s) ([] ++ q0 :: ptl) = s := by
        rw [List.nil_append, ← hps]
        exact hseq
      rw [this]
      simp

theorem parse_serialize (segs : List PathSegment) (h : ∀ s ∈ segs, WFSeg s) :
    parseAbbreviatedPathData (serializeAbbPath segs) = segs := by
  obtain ⟨cur', hrun⟩ := parse_ser_aux segs h none []
  show parseTokens (tokenize (serializeAbbPath segs).data) = segs
  rw [show (serializeAbbPath segs).data = serializeSegs segs from rfl]
  rw [parseTokens, tokenize]
  rw [show initParseSt = (⟨none, [], []⟩ : AbbParseSt) from rfl, hrun]
  simp [finishRun]

/-- Claim C9: abbreviated-path parsing round-trips — parsing any geometry
string yields a deterministic segment list, and reserializing that list to
canonical form and reparsing reproduces exactly the same segment list. -/
theorem xps_C9_path_roundtrip (s : String) :
    parseAbbreviatedPathData (serializeAbbPath (parseAbbreviatedPathData s)) =
      parseAbbreviatedPathData s :=
  parse_serialize _ (parse_WF s)
